import Mathlib

/-!
Verification of the `starr` remote-shell client against its design
specification.

The development shallowly embeds the Rust sources:

* `crates/gui/src/main.rs` — the Worker Bridge loop inside `start_worker`,
  the display-buffer limiter `append_and_limit`, the SGR interpreter
  `ansi_to_layout_job`, and the key mapper `map_key`;
* `crates/core/src/lib.rs` — `StarrSession::connect`, `weak_clone`,
  `read_string`, and the `Drop` implementation.

External collaborators (the ssh2 transport, the mpsc queues, the reader
thread's interleaving, the ansi-parser crate, the clipboard) are modelled
as explicit inputs: oracles, schedules, or parsed-item lists.
-/

set_option maxHeartbeats 1000000

namespace Starr

/-! ### Worker Bridge model (`start_worker`, gui/src/main.rs lines 351-383)

The worker thread loop alternates two phases per iteration:

1. drain every command currently in the `rx_cmd` queue (`try_recv` loop);
   `SendText` and `Resize` call into the session, `Close` sends the
   `Closed("geschlossen")` event and returns from the thread at once;
2. poll `sess.read_string()`; a non-empty result is sent as a `Data` event.

The reader thread appends bytes to the shared buffer concurrently.  Relative
to the worker's two observation points, every interleaving is captured by a
schedule that says which bytes land in the buffer before the command drain
(`pre`) and which land between the drain and the poll (`mid`) of each
iteration.  The hour-long idle timeout branch emits nothing unless an hour
passes without data; no claim depends on it and it is not modelled. -/

/-- Commands sent from the GUI to the worker (`enum ToWorker`). -/
inductive ToWorker
  | SendText (t : String)
  | Resize (c r : Nat)
  | Close
deriving DecidableEq, Repr

/-- Observable actions of the worker, in program order: calls into the
session (`sess.send`, `sess.resize`) and events sent on `tx_evt`
(`FromWorker::Data`, `FromWorker::Closed`). -/
inductive Action
  | send (t : String)
  | resize (c r : Nat)
  | emitData (s : String)
  | emitClosed (m : String)
deriving DecidableEq, Repr

/-- Worker-visible state: the shared byte buffer (already decoded, as the
worker only sees `read_string` output), the ghost record of every byte that
ever arrived, and the ordered trace of session calls and emitted events. -/
structure WState where
  buf : String
  arrived : String
  trace : List Action
deriving DecidableEq, Repr

/-- One iteration of the schedule: the commands found in the queue this
iteration, the bytes the reader appended before the drain, and the bytes it
appended between the drain and the poll. -/
structure WIter where
  cmds : List ToWorker
  bytesBeforeDrain : String
  bytesBeforePoll : String
deriving DecidableEq, Repr

/-- The reader thread appends bytes to the shared buffer
(`b.extend_from_slice(&tmp[..n])` in `connect`). -/
def arrive (s : String) (st : WState) : WState :=
  { st with buf := st.buf ++ s, arrived := st.arrived ++ s }

/-- The `while let Ok(cmd) = rx_cmd.try_recv()` drain.  Returns the state
and whether a `Close` was dequeued (in which case the worker returns
immediately and the remaining commands of the batch are dropped). -/
def drainCmds : List ToWorker → WState → WState × Bool
  | [], st => (st, false)
  | ToWorker.SendText t :: rest, st =>
      drainCmds rest { st with trace := st.trace ++ [Action.send t] }
  | ToWorker.Resize c r :: rest, st =>
      drainCmds rest { st with trace := st.trace ++ [Action.resize c r] }
  | ToWorker.Close :: _, st =>
      ({ st with trace := st.trace ++ [Action.emitClosed "geschlossen"] }, true)

/-- The output poll: `let data = sess.read_string(); if !data.is_empty()`
sends `FromWorker::Data(data)` and the buffer is left empty. -/
def pollData (st : WState) : WState :=
  if st.buf = "" then st
  else { st with buf := "", trace := st.trace ++ [Action.emitData st.buf] }

/-- One iteration of the worker loop under one schedule entry. -/
def stepIter (it : WIter) (st : WState) : WState × Bool :=
  let st1 := arrive it.bytesBeforeDrain st
  let p := drainCmds it.cmds st1
  if p.2 then (p.1, true) else (pollData (arrive it.bytesBeforePoll p.1), false)

/-- The worker loop run under a finite schedule.  The `Bool` records whether
the loop terminated because a `Close` command was dequeued. -/
def workerRun : List WIter → WState → WState × Bool
  | [], st => (st, false)
  | it :: rest, st =>
      match stepIter it st with
      | (st', true) => (st', true)
      | (st', false) => workerRun rest st'

/-- Initial worker state: empty shared buffer, nothing arrived, no trace. -/
def initW : WState := ⟨"", "", []⟩

/-- Concatenation of all `Data` event payloads in a trace. -/
def traceData : List Action → String
  | [] => ""
  | Action.emitData s :: r => s ++ traceData r
  | _ :: r => traceData r

/-- The session call / event a command turns into when drained. -/
def cmdAction : ToWorker → Action
  | ToWorker.SendText t => Action.send t
  | ToWorker.Resize c r => Action.resize c r
  | ToWorker.Close => Action.emitClosed "geschlossen"

/-! ### Display buffer (`append_and_limit`, gui/src/main.rs lines 442-453)

A Rust `String` is a valid-UTF-8 byte vector; `buf.len()` is its byte
length and `buf.char_indices()` yields the byte offset of every character
start.  We represent a `String` as its list of unicode scalar values
(`List Char`) together with the UTF-8 byte length and byte encoding
computed from it, which is exactly the information `append_and_limit`
consumes. -/

/-- Number of bytes of the UTF-8 encoding of a scalar value (`char::len_utf8`). -/
def charWidth (c : Char) : Nat :=
  if c.toNat < 0x80 then 1
  else if c.toNat < 0x800 then 2
  else if c.toNat < 0x10000 then 3
  else 4

/-- Byte length of the UTF-8 encoding of a string (Rust `String::len`). -/
def utf8Len : List Char → Nat
  | [] => 0
  | c :: r => charWidth c + utf8Len r

/-- UTF-8 encoding of one scalar value. -/
def utf8Encode (c : Char) : List Nat :=
  let v := c.toNat
  if v < 0x80 then [v]
  else if v < 0x800 then [0xC0 + v / 0x40, 0x80 + v % 0x40]
  else if v < 0x10000 then
    [0xE0 + v / 0x1000, 0x80 + v / 0x40 % 0x40, 0x80 + v % 0x40]
  else
    [0xF0 + v / 0x40000, 0x80 + v / 0x1000 % 0x40,
     0x80 + v / 0x40 % 0x40, 0x80 + v % 0x40]

/-- UTF-8 encoding of a string (the byte vector underlying a Rust `String`). -/
def utf8EncodeList : List Char → List Nat
  | [] => []
  | c :: r => utf8Encode c ++ utf8EncodeList r

/-- The `for (i, _) in buf.char_indices() { if i >= cut { cut_b = i; break } }`
scan followed by `buf.drain(..cut_b)`: starting from byte offset `i`, find
the first character whose start offset is `≥ cut` and drop everything
before it.  If the scan finds no such character start, the Rust code keeps
`cut_b = cut`; `drain(..cut)` then succeeds only when `cut` is the byte
length of the remaining text (drained to empty) and panics otherwise
(offset inside the final character); the panic is modelled by `none`. -/
def rustCutScan (cut : Nat) : Nat → List Char → Option (List Char)
  | i, [] => if i = cut then some [] else none
  | i, c :: rest =>
      if cut ≤ i then some (c :: rest) else rustCutScan cut (i + charWidth c) rest

/-- `append_and_limit` (gui/src/main.rs): push the chunk, and if the byte
length exceeds `max_len`, cut `cut = len - max_len` bytes from the front,
rounded up to the next character boundary. -/
def append_and_limit (buf chunk : List Char) (max_len : Nat) : Option (List Char) :=
  let b := buf ++ chunk
  if utf8Len b > max_len then rustCutScan (utf8Len b - max_len) 0 b else some b

/-- Fold a sequence of chunk appends into the display buffer, starting from
the given buffer (`none` as soon as one append panics). -/
def appendAll (max_len : Nat) : List (List Char) → List Char → Option (List Char)
  | [], b => some b
  | ch :: rest, b =>
      match append_and_limit b ch max_len with
      | none => none
      | some b' => appendAll max_len rest b'

/-! ### Input mapper (`map_key`, gui/src/main.rs lines 513-537)

The `egui::Key` values `map_key` inspects, plus the signal keys C/D/Z, the
paste key V, and a constructor standing for every other key (all of which
fall into the `_ => None` arms).  `egui::Modifiers` is a record of five
booleans.  The clipboard reached by `paste_from_clipboard()` on Ctrl+V is
an external collaborator and is passed in explicitly, making the embedded
function pure in all three arguments. -/

/-- Subset of `egui::Key` relevant to `map_key`. -/
inductive EKey
  | A | C | D | V | Z
  | Enter | Tab | Backspace | Delete
  | ArrowUp | ArrowDown | ArrowRight | ArrowLeft
  | Home | End | PageUp | PageDown
  | OtherKey
deriving DecidableEq, Repr

/-- Model of `egui::Modifiers`. -/
structure Modifiers where
  alt : Bool
  ctrl : Bool
  shift : Bool
  mac_cmd : Bool
  command : Bool
deriving DecidableEq, Repr

/-- `map_key` (gui/src/main.rs): keyboard to xterm byte sequences; under
Ctrl/Cmd only V (paste) produces bytes and everything else — deliberately
including C, D and Z — maps to `None`. -/
def map_key (k : EKey) (m : Modifiers) (clip : Option String) : Option String :=
  if m.ctrl || m.command then
    match k with
    | EKey.V => clip
    | _ => none
  else
    match k with
    | EKey.Enter => some "\r"
    | EKey.Tab => some "\t"
    | EKey.Backspace => some "\x7f"
    | EKey.Delete => some "\x1b[3~"
    | EKey.ArrowUp => some "\x1b[A"
    | EKey.ArrowDown => some "\x1b[B"
    | EKey.ArrowRight => some "\x1b[C"
    | EKey.ArrowLeft => some "\x1b[D"
    | EKey.Home => some "\x1b[H"
    | EKey.End => some "\x1b[F"
    | EKey.PageUp => some "\x1b[5~"
    | EKey.PageDown => some "\x1b[6~"
    | _ => none

/-! ### Session model (`StarrSession`, core/src/lib.rs)

`connect` runs a fixed sequence of calls against the ssh2 transport; each
can fail.  The transport's responses are modelled by a boolean oracle.  The
model records the authentication methods attempted and the number of
reader threads spawned (`thread::spawn` appears exactly once in `connect`),
and returns the session handle: three shared resource identifiers
(`Arc<Mutex<Session>>`, `Arc<Mutex<Channel>>`, `Arc<Mutex<Vec<u8>>>`) plus
the optional reader join handle. -/

/-- Model of `StarrProfile` (core/src/lib.rs lines 11-22). -/
structure StarrProfile where
  host : String
  port : Nat
  user : String
  key_path : Option String
  password : Option String
  key_passphrase : Option String
deriving DecidableEq, Repr

/-- Responses of the ssh2 transport collaborator during `connect`. -/
structure SshOracle where
  tcp_ok : Bool
  session_new_ok : Bool
  handshake_ok : Bool
  pubkey_ok : Bool
  password_ok : Bool
  authenticated : Bool
  channel_ok : Bool
  pty_ok : Bool
  shell_ok : Bool
deriving DecidableEq, Repr

/-- Which authentication call `connect` issues. -/
inductive AuthMethod
  | key
  | password
deriving DecidableEq, Repr

/-- The distinguishable `anyhow` errors `connect` can return.  `authCall`
is a transport error propagated by `?` from `userauth_pubkey_file` /
`userauth_password`; `missingCreds` is `anyhow!("Kein Auth-Material (Key
oder Passwort) angegeben")`; `authFailed` is `anyhow!("Auth
fehlgeschlagen")`, returned when the auth call succeeded but
`sess.authenticated()` is false. -/
inductive ConnectErr
  | tcp
  | sessionNew
  | handshake
  | authCall (m : AuthMethod)
  | missingCreds
  | authFailed
  | channel
  | pty
  | shell
deriving DecidableEq, Repr

/-- Model of a `StarrSession` value: identifiers of the three shared
resources and the optional reader-thread join handle. -/
structure SessionHandle where
  inner : Nat
  chan : Nat
  buf : Nat
  reader_join : Option Nat
deriving DecidableEq, Repr

/-- Side log of a `connect` call: auth methods attempted, in order, and
number of `thread::spawn` calls performed. -/
structure ConnectLog where
  attempts : List AuthMethod
  spawned : Nat
deriving DecidableEq, Repr

/-- The authentication step of `connect` (core/src/lib.rs lines 55-66):
try the key if a key path is present, else the password if present, else
fail with the missing-credentials error. -/
def authStep (p : StarrProfile) (o : SshOracle) :
    List AuthMethod × Except ConnectErr Unit :=
  match p.key_path with
  | some _ =>
      ([AuthMethod.key],
        if o.pubkey_ok then Except.ok () else Except.error (ConnectErr.authCall AuthMethod.key))
  | none =>
      match p.password with
      | some _ =>
          ([AuthMethod.password],
            if o.password_ok then Except.ok ()
            else Except.error (ConnectErr.authCall AuthMethod.password))
      | none => ([], Except.error ConnectErr.missingCreds)

/-- `StarrSession::connect` (core/src/lib.rs lines 43-118): TCP connect,
session creation, handshake, authentication, the `authenticated()` check,
channel + PTY + shell setup, then exactly one `thread::spawn` for the
reader loop.  Resource identifiers `0` name this connection's freshly
created session, channel and buffer. -/
def connectModel (p : StarrProfile) (o : SshOracle) :
    ConnectLog × Except ConnectErr SessionHandle :=
  if o.tcp_ok = false then (⟨[], 0⟩, Except.error ConnectErr.tcp)
  else if o.session_new_ok = false then (⟨[], 0⟩, Except.error ConnectErr.sessionNew)
  else if o.handshake_ok = false then (⟨[], 0⟩, Except.error ConnectErr.handshake)
  else
    match authStep p o with
    | (att, Except.error e) => (⟨att, 0⟩, Except.error e)
    | (att, Except.ok ()) =>
        if o.authenticated = false then (⟨att, 0⟩, Except.error ConnectErr.authFailed)
        else if o.channel_ok = false then (⟨att, 0⟩, Except.error ConnectErr.channel)
        else if o.pty_ok = false then (⟨att, 0⟩, Except.error ConnectErr.pty)
        else if o.shell_ok = false then (⟨att, 0⟩, Except.error ConnectErr.shell)
        else (⟨att, 1⟩, Except.ok ⟨0, 0, 0, some 0⟩)

/-- `StarrSession::weak_clone` (core/src/lib.rs lines 121-128): clone the
three `Arc`s, set `reader_join: None`.  The returned `Nat` counts the
threads spawned by the call: none. -/
def weak_clone (s : SessionHandle) : SessionHandle × Nat :=
  (⟨s.inner, s.chan, s.buf, none⟩, 0)

/-- The chain of handles obtained by `n` successive `weak_clone` calls
starting from a handle (each clone derived from the previous one). -/
def cloneChain (s : SessionHandle) : Nat → List SessionHandle
  | 0 => []
  | n + 1 => (weak_clone s).1 :: cloneChain (weak_clone s).1 n

/-- Total number of threads spawned by `n` successive `weak_clone` calls. -/
def cloneSpawns (s : SessionHandle) : Nat → Nat
  | 0 => 0
  | n + 1 => (weak_clone s).2 + cloneSpawns (weak_clone s).1 n

/-- Calls made on the shared channel object. -/
inductive ChanCall
  | send_eof (ch : Nat)
  | wait_close (ch : Nat)
deriving DecidableEq, Repr

/-- `impl Drop for StarrSession` (core/src/lib.rs lines 32-39): lock the
shared channel, `send_eof`, `wait_close` (errors ignored; the lock is
assumed unpoisoned).  The reader join handle is not touched. -/
def dropSession (s : SessionHandle) : List ChanCall :=
  [ChanCall.send_eof s.chan, ChanCall.wait_close s.chan]

/-! ### SGR interpreter (`ansi_to_layout_job`, gui/src/main.rs lines 472-510)

The function folds over the output of the external ansi-parser crate:
plain-text blocks are appended to the layout job as one section (one
styled run) in the currently active colour, `SetGraphicsMode` parameter
lists update the colour parameter by parameter, and every other escape
sequence is ignored.  The parse step itself lives in the external crate;
`ansiParse` below models it for the Select-Graphic-Rendition subset
(`ESC [ n (; n)* m`, parameters stored as `u8`, hence the `% 256`), with
every other escape sequence mapped to `otherEscape`. -/

/-- A colour as an (r, g, b) triple (`egui::Color32::from_rgb`). -/
abbrev Rgb : Type := Nat × Nat × Nat

/-- The initial and reset foreground colour, `Color32::from_rgb(230, 230, 230)`. -/
def defaultColor : Rgb := (230, 230, 230)

/-- One SGR parameter applied to the active colour: the `match p as u8`
arms of `ansi_to_layout_job`, written as the equivalent test chain; any
unlisted code falls through to the `_ => {}` arm and leaves the colour
unchanged. -/
def sgrColor (col : Rgb) (p : Nat) : Rgb :=
  if p = 0 then (230, 230, 230)
  else if p = 30 then (0, 0, 0)
  else if p = 31 then (205, 49, 49)
  else if p = 32 then (13, 188, 121)
  else if p = 33 then (229, 229, 16)
  else if p = 34 then (36, 114, 200)
  else if p = 35 then (188, 63, 188)
  else if p = 36 then (17, 168, 205)
  else if p = 37 then (229, 229, 229)
  else if p = 90 then (102, 102, 102)
  else if p = 91 then (241, 76, 76)
  else if p = 92 then (35, 209, 139)
  else if p = 93 then (245, 245, 67)
  else if p = 94 then (59, 142, 234)
  else if p = 95 then (214, 112, 214)
  else if p = 96 then (41, 184, 219)
  else if p = 97 then (255, 255, 255)
  else col

/-- The fixed 16-colour palette keyed by SGR code (30-37, 90-97). -/
def palette : Nat → Rgb
  | 30 => (0, 0, 0)
  | 31 => (205, 49, 49)
  | 32 => (13, 188, 121)
  | 33 => (229, 229, 16)
  | 34 => (36, 114, 200)
  | 35 => (188, 63, 188)
  | 36 => (17, 168, 205)
  | 37 => (229, 229, 229)
  | 90 => (102, 102, 102)
  | 91 => (241, 76, 76)
  | 92 => (35, 209, 139)
  | 93 => (245, 245, 67)
  | 94 => (59, 142, 234)
  | 95 => (214, 112, 214)
  | 96 => (41, 184, 219)
  | 97 => (255, 255, 255)
  | _ => defaultColor

/-- Items produced by the ansi-parser crate's `ansi_parse` iterator, as
matched by `ansi_to_layout_job`: text blocks, `SetGraphicsMode` sequences,
and all other escape sequences (the final `_ => {}` arm). -/
inductive AnsiItem
  | textBlock (s : List Char)
  | setGraphicsMode (ps : List Nat)
  | otherEscape
deriving DecidableEq, Repr

/-- The fold of `ansi_to_layout_job` over the parsed items: each text
block becomes one run in the active colour, each `SetGraphicsMode` folds
its parameters into the colour, everything else is skipped. -/
def applyRuns : List AnsiItem → Rgb → List (List Char × Rgb)
  | [], _ => []
  | AnsiItem.textBlock s :: rest, col => (s, col) :: applyRuns rest col
  | AnsiItem.setGraphicsMode ps :: rest, col => applyRuns rest (ps.foldl sgrColor col)
  | AnsiItem.otherEscape :: rest, col => applyRuns rest col

/-- The escape character starting every recognized sequence. -/
def escChar : Char := '\x1b'

/-- Consume a decimal number (empty digit run parses as 0). -/
def readNumGo : Nat → List Char → Nat × List Char
  | acc, [] => (acc, [])
  | acc, c :: rest =>
      if c.isDigit then readNumGo (acc * 10 + (c.toNat - 48)) rest else (acc, c :: rest)

/-- Model of the crate's SGR parameter list parse, after `ESC [`: a
semicolon-separated list of decimal numbers terminated by `m`, each
parameter stored as a `u8`.  Any other shape fails. -/
def parseParamsGo : Nat → List Nat → List Char → Option (List Nat × List Char)
  | 0, _, _ => none
  | fuel + 1, acc, cs =>
      match readNumGo 0 cs with
      | (n, 'm' :: r2) => some (acc ++ [n % 256], r2)
      | (n, ';' :: r2) => parseParamsGo fuel (acc ++ [n % 256]) r2
      | (_, _) => none

/-- Model of the ansi-parser crate's `ansi_parse` for the SGR subset:
maximal plain-text blocks, `ESC [ params m` as `setGraphicsMode`, every
other escape sequence as `otherEscape`. -/
def ansiParseGo : Nat → List Char → List AnsiItem
  | 0, _ => []
  | fuel + 1, cs =>
      match cs with
      | [] => []
      | _ =>
          let txt := cs.takeWhile (fun c => c ≠ escChar)
          let rest := cs.dropWhile (fun c => c ≠ escChar)
          let pre := if txt.isEmpty then ([] : List AnsiItem)
            else [AnsiItem.textBlock txt]
          match rest with
          | [] => pre
          | _ :: r1 =>
              match r1 with
              | '[' :: r2 =>
                  match parseParamsGo (r2.length + 1) [] r2 with
                  | some (ps, r3) =>
                      pre ++ AnsiItem.setGraphicsMode ps :: ansiParseGo fuel r3
                  | none => pre ++ AnsiItem.otherEscape :: ansiParseGo fuel r2
              | _ => pre ++ AnsiItem.otherEscape :: ansiParseGo fuel r1

/-- Parse a whole character stream (fuel bounded by the input length). -/
def ansiParse (cs : List Char) : List AnsiItem := ansiParseGo (cs.length + 1) cs

/-- `ansi_to_layout_job`: parse, then fold the items starting from the
default colour. -/
def ansi_to_layout_job (cs : List Char) : List (List Char × Rgb) :=
  applyRuns (ansiParse cs) defaultColor

/-! ### `read_string` and lossy UTF-8 decoding (core/src/lib.rs lines 145-150)

`read_string` locks the shared byte buffer, decodes a copy with
`String::from_utf8_lossy`, clears the buffer and returns the text.
`from_utf8_lossy` replaces every maximal invalid subsequence ("substitution
of maximal subparts": a truncated but otherwise well-formed sequence
prefix counts as one error, every other offending byte as its own error)
with U+FFFD.  `decode1` decodes one scalar value or one maximal invalid
subsequence from the front of the byte list, returning the decoded (or
replacement) character and the number of bytes consumed (at least one). -/

/-- The replacement character U+FFFD. -/
def repl : Char := '�'

/-- Lowest admissible second byte for a given lead byte: `0xA0` after
`0xE0` (no overlong 3-byte forms), `0x90` after `0xF0` (no overlong 4-byte
forms), else `0x80`. -/
def cLo (b1 : Nat) : Nat :=
  if b1 = 0xE0 then 0xA0 else if b1 = 0xF0 then 0x90 else 0x80

/-- Highest admissible second byte for a given lead byte: `0x9F` after
`0xED` (no surrogates), `0x8F` after `0xF4` (scalar values stop at
U+10FFFF), else `0xBF`. -/
def cHi (b1 : Nat) : Nat :=
  if b1 = 0xED then 0x9F else if b1 = 0xF4 then 0x8F else 0xBF

/-- Continue a two-byte sequence whose lead byte `b1 ∈ [0xC2, 0xDF]` was
consumed. -/
def decode2 (b1 : Nat) : List Nat → Char × Nat
  | [] => (repl, 1)
  | b2 :: _ =>
      if 0x80 ≤ b2 ∧ b2 < 0xC0 then
        (Char.ofNat ((b1 - 0xC0) * 0x40 + (b2 - 0x80)), 2)
      else (repl, 1)

/-- Continue a three-byte sequence after a valid `lead, second` prefix. -/
def decode3Tail (b1 b2 : Nat) : List Nat → Char × Nat
  | [] => (repl, 2)
  | b3 :: _ =>
      if 0x80 ≤ b3 ∧ b3 < 0xC0 then
        (Char.ofNat ((b1 - 0xE0) * 0x1000 + (b2 - 0x80) * 0x40 + (b3 - 0x80)), 3)
      else (repl, 2)

/-- Continue a three-byte sequence whose lead byte `b1 ∈ [0xE0, 0xEF]` was
consumed. -/
def decode3 (b1 : Nat) : List Nat → Char × Nat
  | [] => (repl, 1)
  | b2 :: rest2 =>
      if cLo b1 ≤ b2 ∧ b2 ≤ cHi b1 then decode3Tail b1 b2 rest2 else (repl, 1)

/-- Continue a four-byte sequence after a valid `lead, second, third`
prefix. -/
def decode4Tail2 (b1 b2 b3 : Nat) : List Nat → Char × Nat
  | [] => (repl, 3)
  | b4 :: _ =>
      if 0x80 ≤ b4 ∧ b4 < 0xC0 then
        (Char.ofNat ((b1 - 0xF0) * 0x40000 + (b2 - 0x80) * 0x1000
          + (b3 - 0x80) * 0x40 + (b4 - 0x80)), 4)
      else (repl, 3)

/-- Continue a four-byte sequence after a valid `lead, second` prefix. -/
def decode4Tail (b1 b2 : Nat) : List Nat → Char × Nat
  | [] => (repl, 2)
  | b3 :: rest3 =>
      if 0x80 ≤ b3 ∧ b3 < 0xC0 then decode4Tail2 b1 b2 b3 rest3 else (repl, 2)

/-- Continue a four-byte sequence whose lead byte `b1 ∈ [0xF0, 0xF4]` was
consumed. -/
def decode4 (b1 : Nat) : List Nat → Char × Nat
  | [] => (repl, 1)
  | b2 :: rest2 =>
      if cLo b1 ≤ b2 ∧ b2 ≤ cHi b1 then decode4Tail b1 b2 rest2 else (repl, 1)

/-- Decode one scalar value or one maximal invalid subsequence from the
front: ASCII, invalid lead (stray continuation byte or overlong lead
`0xC0`/`0xC1` or `≥ 0xF5`), or a 2-, 3- or 4-byte sequence. -/
def decode1 : List Nat → Char × Nat
  | [] => (repl, 1)
  | b1 :: rest =>
      if b1 < 0x80 then (Char.ofNat b1, 1)
      else if b1 < 0xC2 then (repl, 1)
      else if b1 < 0xE0 then decode2 b1 rest
      else if b1 < 0xF0 then decode3 b1 rest
      else if b1 < 0xF5 then decode4 b1 rest
      else (repl, 1)

/-- Fuel-bounded decoding loop: decode one scalar value or maximal invalid
subsequence, drop the consumed bytes, repeat.  `decode1` consumes at least
one byte, so fuel equal to the list length always suffices. -/
def decodeLossyF : Nat → List Nat → List Char
  | 0, _ => []
  | _ + 1, [] => []
  | fuel + 1, b :: l =>
      (decode1 (b :: l)).1
        :: decodeLossyF fuel ((b :: l).drop (max (decode1 (b :: l)).2 1))

/-- `String::from_utf8_lossy`: decode the whole byte list, replacing every
maximal invalid subsequence with U+FFFD. -/
def decodeLossy (l : List Nat) : List Char := decodeLossyF l.length l

/-- `StarrSession::read_string`: decode the buffered bytes lossily, clear
the buffer, return the text.  The pair is (returned text, buffer contents
after the call). -/
def read_string (buf : List Nat) : List Char × List Nat :=
  (decodeLossy buf, [])

end Starr

namespace Starr

/-! Worker Bridge lemmas. -/

theorem traceData_append (a b : List Action) :
    traceData (a ++ b) = traceData a ++ traceData b := by
  induction a with
  | nil => simp [traceData]
  | cons x r ih =>
      cases x <;> simp [traceData, ih, String.append_assoc]

theorem drainCmds_no_close (cmds : List ToWorker) (st : WState)
    (h : ToWorker.Close ∉ cmds) :
    drainCmds cmds st =
      ({ st with trace := st.trace ++ cmds.map cmdAction }, false) := by
  induction cmds generalizing st with
  | nil => simp [drainCmds]
  | cons c rest ih =>
      cases c with
      | SendText t =>
          simp only [List.mem_cons, not_or] at h
          rw [drainCmds, ih _ h.2]
          simp [cmdAction, List.append_assoc]
      | Resize a b =>
          simp only [List.mem_cons, not_or] at h
          rw [drainCmds, ih _ h.2]
          simp [cmdAction, List.append_assoc]
      | Close => simp at h

theorem drainCmds_close_batch (pre post : List ToWorker) (st : WState)
    (h : ToWorker.Close ∉ pre) :
    drainCmds (pre ++ ToWorker.Close :: post) st =
      ({ st with trace := st.trace ++ pre.map cmdAction ++
          [Action.emitClosed "geschlossen"] }, true) := by
  induction pre generalizing st with
  | nil => simp [drainCmds]
  | cons c rest ih =>
      cases c with
      | SendText t =>
          simp only [List.mem_cons, not_or] at h
          rw [List.cons_append, drainCmds, ih _ h.2]
          simp [cmdAction, List.append_assoc]
      | Resize a b =>
          simp only [List.mem_cons, not_or] at h
          rw [List.cons_append, drainCmds, ih _ h.2]
          simp [cmdAction, List.append_assoc]
      | Close => simp at h

theorem drainCmds_frame (cmds : List ToWorker) (st : WState) :
    traceData (drainCmds cmds st).1.trace = traceData st.trace ∧
    (drainCmds cmds st).1.buf = st.buf ∧
    (drainCmds cmds st).1.arrived = st.arrived := by
  induction cmds generalizing st with
  | nil => simp [drainCmds]
  | cons c rest ih =>
      cases c with
      | SendText t =>
          rw [drainCmds]
          rcases ih ({ st with trace := st.trace ++ [Action.send t] }) with ⟨h1, h2, h3⟩
          refine ⟨?_, h2, h3⟩
          rw [h1, traceData_append]
          simp [traceData]
      | Resize a b =>
          rw [drainCmds]
          rcases ih ({ st with trace := st.trace ++ [Action.resize a b] }) with ⟨h1, h2, h3⟩
          refine ⟨?_, h2, h3⟩
          rw [h1, traceData_append]
          simp [traceData]
      | Close =>
          rw [drainCmds]
          refine ⟨?_, rfl, rfl⟩
          rw [traceData_append]
          simp [traceData]

theorem drainCmds_closed_last (cmds : List ToWorker) (st : WState)
    (h : (drainCmds cmds st).2 = true) :
    ∃ tr, (drainCmds cmds st).1.trace = tr ++ [Action.emitClosed "geschlossen"] := by
  induction cmds generalizing st with
  | nil => simp [drainCmds] at h
  | cons c rest ih =>
      cases c with
      | SendText t =>
          rw [drainCmds] at h ⊢
          exact ih _ h
      | Resize a b =>
          rw [drainCmds] at h ⊢
          exact ih _ h
      | Close =>
          rw [drainCmds]
          exact ⟨st.trace, rfl⟩

/-- The conservation invariant: everything emitted as `Data` plus what is
still in the shared buffer equals everything that ever arrived. -/
def Conserves (st : WState) : Prop :=
  traceData st.trace ++ st.buf = st.arrived

theorem conserves_arrive (s : String) (st : WState) (h : Conserves st) :
    Conserves (arrive s st) := by
  unfold Conserves arrive at *
  simp only
  rw [← String.append_assoc, h]

theorem conserves_pollData (st : WState) (h : Conserves st) :
    Conserves (pollData st) := by
  unfold Conserves pollData at *
  split
  · exact h
  · simp only [traceData_append]
    simpa [traceData] using h

theorem conserves_stepIter (it : WIter) (st : WState) (h : Conserves st) :
    Conserves (stepIter it st).1 := by
  have h1 := conserves_arrive it.bytesBeforeDrain st h
  rcases drainCmds_frame it.cmds (arrive it.bytesBeforeDrain st) with ⟨d1, d2, d3⟩
  have h2 : Conserves (drainCmds it.cmds (arrive it.bytesBeforeDrain st)).1 := by
    unfold Conserves at *
    rw [d1, d2, d3]; exact h1
  rcases hd : drainCmds it.cmds (arrive it.bytesBeforeDrain st) with ⟨st2, b⟩
  rw [hd] at h2
  simp only [stepIter, hd]
  cases b
  · simpa using conserves_pollData _ (conserves_arrive _ _ h2)
  · simpa using h2

theorem conserves_workerRun (sched : List WIter) (st : WState) (h : Conserves st) :
    Conserves (workerRun sched st).1 := by
  induction sched generalizing st with
  | nil => exact h
  | cons it rest ih =>
      rw [workerRun]
      have hs := conserves_stepIter it st h
      rcases hstep : stepIter it st with ⟨st', b⟩
      rw [hstep] at hs
      cases b
      · simpa using ih st' hs
      · simpa using hs

theorem stepIter_closed_last (it : WIter) (st : WState)
    (h : (stepIter it st).2 = true) :
    ∃ tr, (stepIter it st).1.trace = tr ++ [Action.emitClosed "geschlossen"] := by
  rcases hd : (drainCmds it.cmds (arrive it.bytesBeforeDrain st)) with ⟨st', b⟩
  simp only [stepIter, hd] at h ⊢
  cases b
  · simp at h
  · have := drainCmds_closed_last it.cmds (arrive it.bytesBeforeDrain st) (by rw [hd])
    rw [hd] at this
    simpa using this

theorem workerRun_closed_last (sched : List WIter) (st : WState)
    (h : (workerRun sched st).2 = true) :
    ∃ tr, (workerRun sched st).1.trace = tr ++ [Action.emitClosed "geschlossen"] := by
  induction sched generalizing st with
  | nil => simp [workerRun] at h
  | cons it rest ih =>
      rw [workerRun] at h ⊢
      rcases hstep : stepIter it st with ⟨st', b⟩
      rw [hstep] at h
      cases b
      · simp only at h ⊢
        exact ih st' h
      · have := stepIter_closed_last it st (by rw [hstep])
        rw [hstep] at this
        simpa using this

/-- Claim C1, counterexample.  Run the worker under the schedule in which the
reader thread has appended the bytes "hi" to the shared buffer just before
the worker drains a `Close` command.  The bytes are present in the shared
buffer when `Close` is dequeued (the final state still holds them,
untouched), yet the trace is exactly `[Closed "geschlossen"]`: no `Data`
event carrying them is ever emitted, because the worker returns from the
`Close` arm before the iteration's `read_string` poll.  This refutes the
claim that such a `Data` event is always emitted before `Closed`. -/
theorem worker_close_loses_buffered_data_cex :
    (workerRun [⟨[ToWorker.Close], "hi", ""⟩] initW).1.buf = "hi" ∧
    (workerRun [⟨[ToWorker.Close], "hi", ""⟩] initW).1.trace
      = [Action.emitClosed "geschlossen"] ∧
    (workerRun [⟨[ToWorker.Close], "hi", ""⟩] initW).2 = true := by
  refine ⟨?_, ?_, rfl⟩ <;> decide

/-- Claim C1, amended.  In every worker run that terminates because a
`Close` command was dequeued, the `Closed("geschlossen")` event is the last
action of the trace, and the concatenation of all emitted `Data` payloads
followed by the bytes still sitting in the shared buffer equals the full
arrival stream.  Hence the bytes present in the shared buffer when `Close`
is dequeued are exactly the arrived bytes that are never emitted: a `Data`
event precedes `Closed` only for bytes polled in an earlier iteration, and
the final buffered bytes are silently discarded. -/
theorem worker_close_emits_closed_last_and_discards_buffer
    (sched : List WIter) (h : (workerRun sched initW).2 = true) :
    (∃ tr, (workerRun sched initW).1.trace
        = tr ++ [Action.emitClosed "geschlossen"]) ∧
    traceData (workerRun sched initW).1.trace ++ (workerRun sched initW).1.buf
      = (workerRun sched initW).1.arrived := by
  refine ⟨workerRun_closed_last sched initW h, ?_⟩
  have h0 : Conserves initW := by unfold Conserves initW traceData; rfl
  exact conserves_workerRun sched initW h0

/-- Witness for the amended C1 theorem at a concrete closing schedule. -/
theorem worker_close_emits_closed_last_and_discards_buffer_witness :
    (∃ tr, (workerRun [⟨[ToWorker.Close], "hi", ""⟩] initW).1.trace
        = tr ++ [Action.emitClosed "geschlossen"]) ∧
    traceData (workerRun [⟨[ToWorker.Close], "hi", ""⟩] initW).1.trace
        ++ (workerRun [⟨[ToWorker.Close], "hi", ""⟩] initW).1.buf
      = (workerRun [⟨[ToWorker.Close], "hi", ""⟩] initW).1.arrived :=
  worker_close_emits_closed_last_and_discards_buffer
    [⟨[ToWorker.Close], "hi", ""⟩] (by decide)

/-- Claim C3.  If the command queue drained in an iteration consists of
`SendText`/`Resize` commands followed by `Close` and then arbitrary further
commands, the worker applies exactly the commands before the `Close` to the
session, in FIFO order, then emits `Closed("geschlossen")` and terminates:
the run's final trace extends the previous trace with the images of the
commands before `Close` followed by the `Closed` event; the commands after
`Close`, the rest of the schedule, and the poll of this iteration are never
executed.  (Commands applied in earlier iterations are already in
`st.trace` and therefore also precede the `Closed` event.) -/
theorem worker_applies_fifo_then_closed (pre post : List ToWorker)
    (b mid : String) (st : WState) (rest : List WIter)
    (h : ToWorker.Close ∉ pre) :
    workerRun (⟨pre ++ ToWorker.Close :: post, b, mid⟩ :: rest) st =
      ({ st with
          buf := st.buf ++ b
          arrived := st.arrived ++ b
          trace := st.trace ++ pre.map cmdAction
            ++ [Action.emitClosed "geschlossen"] }, true) := by
  have hd := drainCmds_close_batch pre post (arrive b st) h
  rw [workerRun]
  simp only [stepIter, hd]
  simp [arrive, List.append_assoc]

/-- Witness for the C3 theorem at a concrete command batch. -/
theorem worker_applies_fifo_then_closed_witness :
    workerRun [⟨[ToWorker.SendText "ls\r", ToWorker.Resize 80 24]
        ++ ToWorker.Close :: [ToWorker.SendText "x"], "", ""⟩] initW =
      ({ initW with
          buf := initW.buf ++ ""
          arrived := initW.arrived ++ ""
          trace := initW.trace
            ++ [ToWorker.SendText "ls\r", ToWorker.Resize 80 24].map cmdAction
            ++ [Action.emitClosed "geschlossen"] }, true) :=
  worker_applies_fifo_then_closed
    [ToWorker.SendText "ls\r", ToWorker.Resize 80 24] [ToWorker.SendText "x"]
    "" "" initW [] (by decide)

/-! Display-buffer lemmas. -/

theorem charWidth_pos (c : Char) : 1 ≤ charWidth c := by
  unfold charWidth; split_ifs <;> omega

theorem charWidth_le_four (c : Char) : charWidth c ≤ 4 := by
  unfold charWidth; split_ifs <;> omega

theorem utf8Len_append (a b : List Char) :
    utf8Len (a ++ b) = utf8Len a + utf8Len b := by
  induction a with
  | nil => simp [utf8Len]
  | cons c r ih => simp [utf8Len, ih]; omega

theorem utf8EncodeList_append (a b : List Char) :
    utf8EncodeList (a ++ b) = utf8EncodeList a ++ utf8EncodeList b := by
  induction a with
  | nil => simp [utf8EncodeList]
  | cons c r ih => simp [utf8EncodeList, ih]

theorem rustCutScan_some (l : List Char) (i cut : Nat) (hi : i ≤ cut)
    (h4 : cut + 4 ≤ i + utf8Len l) :
    ∃ r, rustCutScan cut i l = some r := by
  induction l generalizing i with
  | nil => simp [utf8Len] at h4; omega
  | cons c rest ih =>
      rw [rustCutScan]
      by_cases hci : cut ≤ i
      · simp [hci]
      · simp only [if_neg hci]
        by_cases h2 : i + charWidth c ≤ cut
        · exact ih (i + charWidth c) h2 (by simp [utf8Len] at h4 ⊢; omega)
        · cases rest with
          | nil =>
              have := charWidth_le_four c
              simp [utf8Len] at h4
              omega
          | cons c2 r2 =>
              rw [rustCutScan]
              simp [show cut ≤ i + charWidth c by omega]

theorem rustCutScan_bound (l : List Char) (i cut : Nat) (r : List Char)
    (h : rustCutScan cut i l = some r) :
    utf8Len r + cut ≤ i + utf8Len l := by
  induction l generalizing i with
  | nil =>
      rw [rustCutScan] at h
      split at h
      · cases h; simp [utf8Len]; omega
      · cases h
  | cons c rest ih =>
      rw [rustCutScan] at h
      split at h
      · cases h
        have := charWidth_pos c
        omega
      · have := ih (i + charWidth c) h
        simp [utf8Len] at this ⊢
        omega

theorem rustCutScan_suffix (l : List Char) (i cut : Nat) (r : List Char)
    (h : rustCutScan cut i l = some r) :
    ∃ t, t ++ r = l := by
  induction l generalizing i with
  | nil =>
      rw [rustCutScan] at h
      split at h
      · cases h; exact ⟨[], rfl⟩
      · cases h
  | cons c rest ih =>
      rw [rustCutScan] at h
      split at h
      · cases h; exact ⟨[], rfl⟩
      · rcases ih (i + charWidth c) h with ⟨t, ht⟩
        exact ⟨c :: t, by simp [ht]⟩

theorem append_and_limit_spec (b ch : List Char) (m : Nat) (hm : 4 ≤ m) :
    ∃ b', append_and_limit b ch m = some b' ∧ utf8Len b' ≤ m ∧
      ∃ t, t ++ b' = b ++ ch := by
  unfold append_and_limit
  by_cases hov : utf8Len (b ++ ch) > m
  · simp only [if_pos hov]
    rcases rustCutScan_some (b ++ ch) 0 (utf8Len (b ++ ch) - m)
        (Nat.zero_le _) (by omega) with ⟨r, hr⟩
    have hb := rustCutScan_bound (b ++ ch) 0 (utf8Len (b ++ ch) - m) r hr
    rcases rustCutScan_suffix (b ++ ch) 0 (utf8Len (b ++ ch) - m) r hr with ⟨t, ht⟩
    exact ⟨r, hr, by omega, t, ht⟩
  · simp only [if_neg hov]
    exact ⟨b ++ ch, rfl, by omega, [], rfl⟩

theorem appendAll_spec (m : Nat) (hm : 4 ≤ m) (chunks : List (List Char))
    (b : List Char) (hb : utf8Len b ≤ m) :
    ∃ r, appendAll m chunks b = some r ∧ utf8Len r ≤ m ∧
      ∃ t, t ++ utf8EncodeList r = utf8EncodeList b ++ utf8EncodeList chunks.flatten := by
  induction chunks generalizing b with
  | nil =>
      exact ⟨b, rfl, hb, [], by simp [List.flatten, utf8EncodeList]⟩
  | cons ch rest ih =>
      rcases append_and_limit_spec b ch m hm with ⟨b', hb', hlen, t1, ht1⟩
      rcases ih b' hlen with ⟨r, hr, hrlen, t2, ht2⟩
      refine ⟨r, ?_, hrlen, utf8EncodeList t1 ++ t2, ?_⟩
      · rw [appendAll, hb']
        exact hr
      · have henc : utf8EncodeList t1 ++ utf8EncodeList b'
            = utf8EncodeList b ++ utf8EncodeList ch := by
          rw [← utf8EncodeList_append, ← utf8EncodeList_append, ht1]
        calc (utf8EncodeList t1 ++ t2) ++ utf8EncodeList r
            = utf8EncodeList t1 ++ (t2 ++ utf8EncodeList r) := by
              rw [List.append_assoc]
          _ = utf8EncodeList t1 ++ (utf8EncodeList b' ++ utf8EncodeList (rest.flatten)) := by
              rw [ht2]
          _ = (utf8EncodeList t1 ++ utf8EncodeList b') ++ utf8EncodeList (rest.flatten) := by
              rw [List.append_assoc]
          _ = (utf8EncodeList b ++ utf8EncodeList ch) ++ utf8EncodeList (rest.flatten) := by
              rw [henc]
          _ = utf8EncodeList b ++ utf8EncodeList ((ch :: rest).flatten) := by
              simp [List.flatten, utf8EncodeList_append, List.append_assoc]

/-- Claim C2.  For every sequence of chunks appended through
`append_and_limit` with a maximum of at least 4 bytes (a UTF-8 scalar
value occupies at most 4 bytes; the program configures 200 000), every
append succeeds (no `drain` panic) and the resulting buffer has UTF-8 byte
length at most the maximum, and its byte encoding is a suffix of the byte
encoding of the concatenation of all chunks appended so far.  Because the
result is again a list of whole scalar values whose encoding splits the
full stream, the cut point falls on a character boundary: no code point is
split by the truncation.  Instantiating `chunks` with each prefix of the
append sequence gives the property after every intermediate append. -/
theorem append_and_limit_bounded_suffix (m : Nat) (hm : 4 ≤ m)
    (chunks : List (List Char)) :
    ∃ b, appendAll m chunks [] = some b ∧ utf8Len b ≤ m ∧
      ∃ t, t ++ utf8EncodeList b = utf8EncodeList chunks.flatten := by
  rcases appendAll_spec m hm chunks [] (by simp [utf8Len]) with ⟨r, h1, h2, t, h3⟩
  exact ⟨r, h1, h2, t, by simpa [utf8EncodeList] using h3⟩

/-- Witness for the C2 theorem: three concrete chunks (one containing a
two-byte character) against the maximum 4. -/
theorem append_and_limit_bounded_suffix_witness :
    ∃ b, appendAll 4 [['a', 'b', 'c'], ['é'], ['d', 'e']] [] = some b ∧
      utf8Len b ≤ 4 ∧
      ∃ t, t ++ utf8EncodeList b
        = utf8EncodeList ([['a', 'b', 'c'], ['é'], ['d', 'e']] : List (List Char)).flatten :=
  append_and_limit_bounded_suffix 4 (by decide) [['a', 'b', 'c'], ['é'], ['d', 'e']]

/-! Input-mapper theorem. -/

/-- Claim C8.  `map_key` is a function of the key, the modifier set and the
(explicitly passed) clipboard; under Ctrl/Cmd the process-signal
combinations Ctrl+C, Ctrl+D and Ctrl+Z map to `none`, and with no control
modifier the navigation and editing keys map to their xterm byte
sequences: Enter to CR, Tab to HT, Backspace to DEL (0x7f), Delete to
`ESC[3~`, the arrow keys to `ESC[A`..`ESC[D`, Home to `ESC[H`, End to
`ESC[F`, and Page Up/Down to `ESC[5~`/`ESC[6~`. -/
theorem map_key_spec (m : Modifiers) (clip : Option String) :
    ((m.ctrl || m.command) = true →
      map_key EKey.C m clip = none ∧ map_key EKey.D m clip = none ∧
      map_key EKey.Z m clip = none) ∧
    ((m.ctrl || m.command) = false →
      map_key EKey.Enter m clip = some "\r" ∧
      map_key EKey.Tab m clip = some "\t" ∧
      map_key EKey.Backspace m clip = some "\x7f" ∧
      map_key EKey.Delete m clip = some "\x1b[3~" ∧
      map_key EKey.ArrowUp m clip = some "\x1b[A" ∧
      map_key EKey.ArrowDown m clip = some "\x1b[B" ∧
      map_key EKey.ArrowRight m clip = some "\x1b[C" ∧
      map_key EKey.ArrowLeft m clip = some "\x1b[D" ∧
      map_key EKey.Home m clip = some "\x1b[H" ∧
      map_key EKey.End m clip = some "\x1b[F" ∧
      map_key EKey.PageUp m clip = some "\x1b[5~" ∧
      map_key EKey.PageDown m clip = some "\x1b[6~") := by
  constructor <;> intro h <;> simp [map_key, h]

/-- Witness for the C8 theorem: Ctrl+C is unmapped, plain Enter is CR. -/
theorem map_key_spec_witness :
    map_key EKey.C ⟨false, true, false, false, false⟩ none = none ∧
    map_key EKey.Enter ⟨false, false, false, false, false⟩ none = some "\r" :=
  ⟨((map_key_spec ⟨false, true, false, false, false⟩ none).1 (by decide)).1,
   ((map_key_spec ⟨false, false, false, false, false⟩ none).2 (by decide)).1⟩

/-! Session-model lemmas and theorems. -/

theorem connect_attempts_eq (p : StarrProfile) (o : SshOracle)
    (ht : o.tcp_ok = true) (hn : o.session_new_ok = true)
    (hh : o.handshake_ok = true) :
    (connectModel p o).1.attempts = (authStep p o).1 := by
  rcases ha : authStep p o with ⟨att, r⟩
  cases r with
  | error e => simp [connectModel, ha, ht, hn, hh]
  | ok u =>
      cases u
      simp only [connectModel, ha, ht, hn, hh]
      split_ifs <;> simp_all

/-- Claim C6.  Once the connect phase reaches authentication (TCP, session
creation and handshake all succeeded): a key path being present means
exactly the key method is attempted (even if a password is also present);
no key but a password means exactly the password method is attempted;
neither present fails with the missing-credentials error without
attempting anything; and an authentication call that completes while the
transport still reports the session unauthenticated fails with the
authentication-failed error. -/
theorem connect_auth_spec (p : StarrProfile) (o : SshOracle)
    (ht : o.tcp_ok = true) (hn : o.session_new_ok = true)
    (hh : o.handshake_ok = true) :
    (p.key_path.isSome = true →
      (connectModel p o).1.attempts = [AuthMethod.key]) ∧
    (p.key_path = none → p.password.isSome = true →
      (connectModel p o).1.attempts = [AuthMethod.password]) ∧
    (p.key_path = none → p.password = none →
      (connectModel p o).1.attempts = [] ∧
      (connectModel p o).2 = Except.error ConnectErr.missingCreds) ∧
    ((p.key_path.isSome = true ∧ o.pubkey_ok = true ∨
        p.key_path = none ∧ p.password.isSome = true ∧ o.password_ok = true) →
      o.authenticated = false →
      (connectModel p o).2 = Except.error ConnectErr.authFailed) := by
  have hatt := connect_attempts_eq p o ht hn hh
  refine ⟨?_, ?_, ?_, ?_⟩
  · intro hk
    rcases hkp : p.key_path with _ | k
    · rw [hkp] at hk; simp at hk
    · rw [hatt]; simp [authStep, hkp]
  · intro hk hw
    rcases hpw : p.password with _ | w
    · rw [hpw] at hw; simp at hw
    · rw [hatt]; simp [authStep, hk, hpw]
  · intro hk hw
    refine ⟨by rw [hatt]; simp [authStep, hk, hw], ?_⟩
    unfold connectModel
    simp only [ht, hn, hh]
    simp [authStep, hk, hw]
  · rintro (⟨hk, hpo⟩ | ⟨hk, hw, hpo⟩) hauth
    · rcases hkp : p.key_path with _ | k
      · rw [hkp] at hk; simp at hk
      · unfold connectModel
        simp only [ht, hn, hh]
        simp [authStep, hkp, hpo, hauth]
    · rcases hpw : p.password with _ | w
      · rw [hpw] at hw; simp at hw
      · unfold connectModel
        simp only [ht, hn, hh]
        simp [authStep, hk, hpw, hpo, hauth]

/-- Witness for the C6 theorem: a password-only profile against a transport
whose password call succeeds but which reports the session
unauthenticated; `connect` returns the authentication-failed error, having
attempted exactly the password method. -/
theorem connect_auth_spec_witness :
    (connectModel ⟨"h", 22, "u", none, some "pw", none⟩
        ⟨true, true, true, true, true, false, true, true, true⟩).1.attempts
      = [AuthMethod.password] ∧
    (connectModel ⟨"h", 22, "u", none, some "pw", none⟩
        ⟨true, true, true, true, true, false, true, true, true⟩).2
      = Except.error ConnectErr.authFailed :=
  ⟨((connect_auth_spec ⟨"h", 22, "u", none, some "pw", none⟩
      ⟨true, true, true, true, true, false, true, true, true⟩
      rfl rfl rfl).2.1) rfl rfl,
   ((connect_auth_spec ⟨"h", 22, "u", none, some "pw", none⟩
      ⟨true, true, true, true, true, false, true, true, true⟩
      rfl rfl rfl).2.2.2) (Or.inr ⟨rfl, rfl, rfl⟩) rfl⟩

theorem cloneSpawns_eq_zero (n : Nat) (s : SessionHandle) :
    cloneSpawns s n = 0 := by
  induction n generalizing s with
  | zero => rfl
  | succ k ih => simp [cloneSpawns, weak_clone, ih]

theorem cloneChain_shares (n : Nat) (s c : SessionHandle)
    (h : c ∈ cloneChain s n) :
    c.inner = s.inner ∧ c.chan = s.chan ∧ c.buf = s.buf ∧
    c.reader_join = none := by
  induction n generalizing s with
  | zero => simp [cloneChain] at h
  | succ k ih =>
      rw [cloneChain] at h
      rcases List.mem_cons.mp h with h1 | h1
      · subst h1; exact ⟨rfl, rfl, rfl, rfl⟩
      · rcases ih _ h1 with ⟨a, b, c', d⟩
        exact ⟨a, b, c', d⟩

theorem connect_ok_spawned_one (p : StarrProfile) (o : SshOracle)
    (s : SessionHandle) (h : (connectModel p o).2 = Except.ok s) :
    (connectModel p o).1.spawned = 1 := by
  rcases ha : authStep p o with ⟨att, r⟩
  cases r with
  | error e =>
      simp only [connectModel, ha] at h
      split_ifs at h
  | ok u =>
      cases u
      simp only [connectModel, ha] at h ⊢
      split_ifs at h ⊢
      rfl

/-- Claim C7.  A successful `connect` spawns exactly one reader thread, and
every further handle obtained by `weak_clone` (any number of times, also
from clones) spawns none, references the same transport session, channel
and shared buffer, and carries no reader join handle; so the total number
of reader threads for the channel is one, independent of the number of
clones. -/
theorem one_reader_thread (p : StarrProfile) (o : SshOracle)
    (s : SessionHandle) (n : Nat)
    (h : (connectModel p o).2 = Except.ok s) :
    (connectModel p o).1.spawned = 1 ∧
    (connectModel p o).1.spawned + cloneSpawns s n = 1 ∧
    ∀ c ∈ cloneChain s n,
      c.inner = s.inner ∧ c.chan = s.chan ∧ c.buf = s.buf ∧
      c.reader_join = none := by
  have h1 := connect_ok_spawned_one p o s h
  exact ⟨h1, by rw [h1, cloneSpawns_eq_zero], fun c hc => cloneChain_shares n s c hc⟩

/-- Witness for the C7 theorem: a fully successful oracle and three clones. -/
theorem one_reader_thread_witness :
    (connectModel ⟨"h", 22, "u", none, some "pw", none⟩
        ⟨true, true, true, true, true, true, true, true, true⟩).1.spawned = 1 ∧
    (connectModel ⟨"h", 22, "u", none, some "pw", none⟩
        ⟨true, true, true, true, true, true, true, true, true⟩).1.spawned
      + cloneSpawns ⟨0, 0, 0, some 0⟩ 3 = 1 ∧
    ∀ c ∈ cloneChain (⟨0, 0, 0, some 0⟩ : SessionHandle) 3,
      c.inner = (⟨0, 0, 0, some 0⟩ : SessionHandle).inner ∧
      c.chan = (⟨0, 0, 0, some 0⟩ : SessionHandle).chan ∧
      c.buf = (⟨0, 0, 0, some 0⟩ : SessionHandle).buf ∧
      c.reader_join = none :=
  one_reader_thread ⟨"h", 22, "u", none, some "pw", none⟩
    ⟨true, true, true, true, true, true, true, true, true⟩
    ⟨0, 0, 0, some 0⟩ 3 rfl

/-- Claim C9.  Dropping any session handle performs `send_eof` followed by
`wait_close` on the channel the handle references; a handle produced by
`weak_clone` references the very channel of the original handle, so its
drop issues exactly the same two calls as dropping the original would,
closing the channel still shared with the original and with every other
clone. -/
theorem drop_closes_shared_channel (s : SessionHandle) :
    dropSession (weak_clone s).1
      = [ChanCall.send_eof s.chan, ChanCall.wait_close s.chan] ∧
    dropSession (weak_clone s).1 = dropSession s ∧
    (weak_clone s).1.chan = s.chan :=
  ⟨rfl, rfl, rfl⟩

/-! SGR-interpreter theorem. -/

/-- Claim C4.  The interpreter's parameter step: code 0 resets the active
foreground to the default colour, each code in 30-37 and 90-97 sets it to
the fixed palette colour for that code (independently of the previous
colour), and every other code leaves the colour unchanged; in the item
fold, every text block becomes exactly one run carrying the colour active
when it is reached, in input order, and non-SGR escape sequences are
skipped without effect.  On the concrete input
`"\x1b[31mHELLO\x1b[0mWORLD"` this produces exactly two runs: `HELLO` in
the code-31 colour and `WORLD` in the default colour. -/
theorem ansi_sgr_spec :
    ansi_to_layout_job "\x1b[31mHELLO\x1b[0mWORLD".data
      = [("HELLO".data, (205, 49, 49)), ("WORLD".data, defaultColor)] ∧
    (∀ col : Rgb, sgrColor col 0 = defaultColor) ∧
    (∀ (col : Rgb) (p : Nat),
      (30 ≤ p ∧ p ≤ 37) ∨ (90 ≤ p ∧ p ≤ 97) → sgrColor col p = palette p) ∧
    (∀ (col : Rgb) (p : Nat),
      p ≠ 0 → ¬(30 ≤ p ∧ p ≤ 37) → ¬(90 ≤ p ∧ p ≤ 97) → sgrColor col p = col) ∧
    (∀ (items : List AnsiItem) (col : Rgb) (s : List Char),
      applyRuns (AnsiItem.textBlock s :: items) col
        = (s, col) :: applyRuns items col) ∧
    (∀ (items : List AnsiItem) (col : Rgb),
      applyRuns (AnsiItem.otherEscape :: items) col = applyRuns items col) := by
  refine ⟨by decide, fun col => rfl, ?_, ?_, fun items col s => rfl,
    fun items col => rfl⟩
  · rintro col p (⟨h1, h2⟩ | ⟨h1, h2⟩) <;> interval_cases p <;> rfl
  · intro col p h0 h1 h2
    unfold sgrColor
    repeat rw [if_neg (by omega)]

/-- Witness for the C4 theorem: code 31 overwrites any active colour with
the palette colour, code 1 (bold, unhandled) leaves it unchanged. -/
theorem ansi_sgr_spec_witness :
    sgrColor (0, 0, 0) 31 = palette 31 ∧ sgrColor (1, 2, 3) 1 = (1, 2, 3) :=
  ⟨ansi_sgr_spec.2.2.1 (0, 0, 0) 31 (Or.inl (by decide)),
   ansi_sgr_spec.2.2.2.1 (1, 2, 3) 1 (by decide) (by decide) (by decide)⟩

/-! Lossy-decoder lemmas. -/

theorem decodeLossyF_congr (f1 : Nat) : ∀ (f2 : Nat) (l : List Nat),
    l.length ≤ f1 → l.length ≤ f2 → decodeLossyF f1 l = decodeLossyF f2 l := by
  induction f1 with
  | zero =>
      intro f2 l h1 _
      have : l = [] := List.length_eq_zero.mp (by omega)
      subst this
      cases f2 <;> rfl
  | succ f1' ih =>
      intro f2 l h1 h2
      cases l with
      | nil => cases f2 <;> rfl
      | cons b l' =>
          cases f2 with
          | zero => simp at h2
          | succ f2' =>
              rw [decodeLossyF, decodeLossyF]
              congr 1
              apply ih
              · simp only [List.length_drop, List.length_cons] at *
                omega
              · simp only [List.length_drop, List.length_cons] at *
                omega

theorem decodeLossy_cons (b : Nat) (l : List Nat) :
    decodeLossy (b :: l)
      = (decode1 (b :: l)).1
        :: decodeLossy ((b :: l).drop (max (decode1 (b :: l)).2 1)) := by
  unfold decodeLossy
  rw [show (b :: l).length = l.length + 1 from rfl, decodeLossyF]
  congr 1
  apply decodeLossyF_congr
  · simp only [List.length_drop, List.length_cons]
    omega
  · exact Nat.le_refl _

theorem length_utf8Encode (c : Char) : (utf8Encode c).length = charWidth c := by
  simp only [utf8Encode, charWidth]
  split_ifs <;> rfl

theorem decode1_encode (c : Char) (t : List Nat) :
    decode1 (utf8Encode c ++ t) = (c, charWidth c) := by
  have hvalid : c.toNat < 0xd800 ∨ (0xdfff < c.toNat ∧ c.toNat < 0x110000) := c.valid
  by_cases h1 : c.toNat < 0x80
  · have he : utf8Encode c = [c.toNat] := by simp [utf8Encode, h1]
    have hw : charWidth c = 1 := by simp [charWidth, h1]
    rw [he, hw, List.cons_append, List.nil_append, decode1, if_pos h1,
      Char.ofNat_toNat]
  · by_cases h2 : c.toNat < 0x800
    · have he : utf8Encode c = [0xC0 + c.toNat / 0x40, 0x80 + c.toNat % 0x40] := by
        simp [utf8Encode, h1, h2]
      have hw : charWidth c = 2 := by simp [charWidth, h1, h2]
      rw [he, hw]
      simp only [List.cons_append, List.nil_append]
      rw [decode1, if_neg (by omega), if_neg (by omega), if_pos (by omega),
        decode2, if_pos (by omega)]
      have hval : (0xC0 + c.toNat / 0x40 - 0xC0) * 0x40
          + (0x80 + c.toNat % 0x40 - 0x80) = c.toNat := by omega
      rw [hval, Char.ofNat_toNat]
    · by_cases h3 : c.toNat < 0x10000
      · have he : utf8Encode c = [0xE0 + c.toNat / 0x1000,
            0x80 + c.toNat / 0x40 % 0x40, 0x80 + c.toNat % 0x40] := by
          simp [utf8Encode, h1, h2, h3]
        have hw : charWidth c = 3 := by simp [charWidth, h1, h2, h3]
        rw [he, hw]
        simp only [List.cons_append, List.nil_append]
        have hcond : cLo (0xE0 + c.toNat / 0x1000) ≤ 0x80 + c.toNat / 0x40 % 0x40 ∧
            0x80 + c.toNat / 0x40 % 0x40 ≤ cHi (0xE0 + c.toNat / 0x1000) := by
          unfold cLo cHi
          rcases hvalid with hv | ⟨hv1, hv2⟩ <;> split_ifs <;> omega
        rw [decode1, if_neg (by omega), if_neg (by omega), if_neg (by omega),
          if_pos (by omega), decode3, if_pos hcond, decode3Tail, if_pos (by omega)]
        have hval : (0xE0 + c.toNat / 0x1000 - 0xE0) * 0x1000
            + (0x80 + c.toNat / 0x40 % 0x40 - 0x80) * 0x40
            + (0x80 + c.toNat % 0x40 - 0x80) = c.toNat := by omega
        rw [hval, Char.ofNat_toNat]
      · have h4 : c.toNat < 0x110000 := by
          rcases hvalid with hv | ⟨hv1, hv2⟩ <;> omega
        have he : utf8Encode c = [0xF0 + c.toNat / 0x40000,
            0x80 + c.toNat / 0x1000 % 0x40, 0x80 + c.toNat / 0x40 % 0x40,
            0x80 + c.toNat % 0x40] := by
          simp [utf8Encode, h1, h2, h3]
        have hw : charWidth c = 4 := by simp [charWidth, h1, h2, h3]
        rw [he, hw]
        simp only [List.cons_append, List.nil_append]
        have hcond : cLo (0xF0 + c.toNat / 0x40000) ≤ 0x80 + c.toNat / 0x1000 % 0x40 ∧
            0x80 + c.toNat / 0x1000 % 0x40 ≤ cHi (0xF0 + c.toNat / 0x40000) := by
          unfold cLo cHi
          split_ifs <;> omega
        rw [decode1, if_neg (by omega), if_neg (by omega), if_neg (by omega),
          if_neg (by omega), if_pos (by omega), decode4, if_pos hcond,
          decode4Tail, if_pos (by omega), decode4Tail2, if_pos (by omega)]
        have hval : (0xF0 + c.toNat / 0x40000 - 0xF0) * 0x40000
            + (0x80 + c.toNat / 0x1000 % 0x40 - 0x80) * 0x1000
            + (0x80 + c.toNat / 0x40 % 0x40 - 0x80) * 0x40
            + (0x80 + c.toNat % 0x40 - 0x80) = c.toNat := by omega
        rw [hval, Char.ofNat_toNat]

theorem decodeLossy_encode_cons (c : Char) (t : List Nat) :
    decodeLossy (utf8Encode c ++ t) = c :: decodeLossy t := by
  have hd := decode1_encode c t
  have hl : (utf8Encode c).length = charWidth c := length_utf8Encode c
  have hpos : 1 ≤ charWidth c := charWidth_pos c
  rcases he : utf8Encode c with _ | ⟨b, l⟩
  · rw [he] at hl
    simp at hl
    omega
  · rw [he] at hd hl
    rw [List.cons_append] at hd ⊢
    rw [decodeLossy_cons, hd]
    dsimp only
    rw [Nat.max_eq_left hpos]
    congr 1
    rw [← List.cons_append, List.drop_left' hl]

theorem decodeLossy_encodeList (cs : List Char) :
    decodeLossy (utf8EncodeList cs) = cs := by
  induction cs with
  | nil => rfl
  | cons c rest ih => rw [utf8EncodeList, decodeLossy_encode_cons, ih]

theorem decodeLossy_cont_bytes (bytes : List Nat)
    (h : ∀ b ∈ bytes, 0x80 ≤ b ∧ b < 0xC0) :
    decodeLossy bytes = List.replicate bytes.length repl := by
  induction bytes with
  | nil => rfl
  | cons b l ih =>
      have hb := h b (by simp)
      have hd : decode1 (b :: l) = (repl, 1) := by
        rw [decode1, if_neg (by omega), if_pos (by omega)]
      rw [decodeLossy_cons, hd]
      dsimp only
      rw [show max 1 1 = 1 from rfl, List.drop_one, List.tail_cons,
        ih (fun x hx => h x (by simp [hx]))]
      simp [List.replicate_succ]

theorem decodeLossy_lead_only (b1 : Nat) (h : 0xC2 ≤ b1) (h5 : b1 < 0xF5) :
    decodeLossy [b1] = [repl] := by
  have hd : decode1 [b1] = (repl, 1) := by
    by_cases ha : b1 < 0xE0
    · rw [decode1, if_neg (by omega), if_neg (by omega), if_pos ha]; rfl
    · by_cases hb : b1 < 0xF0
      · rw [decode1, if_neg (by omega), if_neg (by omega), if_neg ha, if_pos hb]
        rfl
      · rw [decode1, if_neg (by omega), if_neg (by omega), if_neg ha, if_neg hb,
          if_pos h5]
        rfl
  rw [decodeLossy_cons, hd]
  rfl

theorem decodeLossy_pair_lead3 (b1 b2 : Nat) (ha : 0xE0 ≤ b1) (hb : b1 < 0xF0)
    (hcond : cLo b1 ≤ b2 ∧ b2 ≤ cHi b1) :
    decodeLossy [b1, b2] = [repl] := by
  have hd : decode1 [b1, b2] = (repl, 2) := by
    rw [decode1, if_neg (by omega), if_neg (by omega), if_neg (by omega),
      if_pos hb, decode3, if_pos hcond]
    rfl
  rw [decodeLossy_cons, hd]
  rfl

theorem decodeLossy_pair_lead4 (b1 b2 : Nat) (ha : 0xF0 ≤ b1) (hb : b1 < 0xF5)
    (hcond : cLo b1 ≤ b2 ∧ b2 ≤ cHi b1) :
    decodeLossy [b1, b2] = [repl] := by
  have hd : decode1 [b1, b2] = (repl, 2) := by
    rw [decode1, if_neg (by omega), if_neg (by omega), if_neg (by omega),
      if_neg (by omega), if_pos hb, decode4, if_pos hcond]
    rfl
  rw [decodeLossy_cons, hd]
  rfl

theorem decodeLossy_triple_lead4 (b1 b2 b3 : Nat) (ha : 0xF0 ≤ b1)
    (hb : b1 < 0xF5) (hcond : cLo b1 ≤ b2 ∧ b2 ≤ cHi b1)
    (hc3 : 0x80 ≤ b3 ∧ b3 < 0xC0) :
    decodeLossy [b1, b2, b3] = [repl] := by
  have hd : decode1 [b1, b2, b3] = (repl, 3) := by
    rw [decode1, if_neg (by omega), if_neg (by omega), if_neg (by omega),
      if_neg (by omega), if_pos hb, decode4, if_pos hcond, decode4Tail,
      if_pos hc3]
    rfl
  rw [decodeLossy_cons, hd]
  rfl

/-- Claim C5.  `read_string` leaves the buffer empty, returns the empty
text when the buffer holds no bytes, returns empty on a second call with
no intervening data, decodes any valid UTF-8 buffer content exactly (so
the buffered text is returned once), and replaces invalid bytes with
U+FFFD instead of failing (the decoder is total; `0xFF` shown here). -/
theorem read_string_spec (buf : List Nat) (cs : List Char) :
    (read_string buf).2 = [] ∧
    (buf = [] → (read_string buf).1 = []) ∧
    (read_string ((read_string buf).2)).1 = [] ∧
    read_string (utf8EncodeList cs) = (cs, []) ∧
    (read_string [0xFF]).1 = [repl] := by
  refine ⟨rfl, ?_, rfl, ?_, rfl⟩
  · intro h
    subst h
    rfl
  · unfold read_string
    rw [decodeLossy_encodeList]

/-- Witness for the C5 theorem: the empty buffer yields empty text, and
the two-character buffer content "hi" is returned exactly once with the
buffer left empty. -/
theorem read_string_spec_witness :
    (read_string ([] : List Nat)).1 = [] ∧
    read_string (utf8EncodeList ['h', 'i']) = (['h', 'i'], []) :=
  ⟨(read_string_spec [] ['h', 'i']).2.1 rfl,
   (read_string_spec [] ['h', 'i']).2.2.2.1⟩

/-- Claim C10, counterexample.  The replacement character U+FFFD is itself
a multi-byte code point (3 bytes); splitting its encoding after the first
byte makes the first `read_string` call return exactly U+FFFD — so for
this code point the "original code point" IS produced by a call, refuting
the universally quantified claim. -/
theorem read_split_repl_cex :
    2 ≤ charWidth repl ∧ (1 : Nat) < charWidth repl ∧
    repl ∈ (read_string (List.take 1 (utf8Encode repl))).1 ∧
    (read_string (List.take 1 (utf8Encode repl))).1 = [repl] := by
  refine ⟨by decide, by decide, by decide, by decide⟩

/-- Claim C10, amended.  For every multi-byte code point whose encoded
bytes are split across two `read_string` calls, the first call (seeing a
truncated sequence prefix) returns exactly one U+FFFD, the second call
(seeing stray continuation bytes) returns one U+FFFD per remaining byte,
and — for every code point other than U+FFFD itself — the original code
point is never produced by either call. -/
theorem read_split_codepoint (c : Char) (k : Nat) (hw2 : 2 ≤ charWidth c)
    (hk1 : 1 ≤ k) (hk : k < charWidth c) :
    (read_string (List.take k (utf8Encode c))).1 = [repl] ∧
    (read_string (List.drop k (utf8Encode c))).1
      = List.replicate (charWidth c - k) repl ∧
    (c ≠ repl →
      c ∉ (read_string (List.take k (utf8Encode c))).1 ∧
      c ∉ (read_string (List.drop k (utf8Encode c))).1) := by
  have hvalid : c.toNat < 0xd800 ∨ (0xdfff < c.toNat ∧ c.toNat < 0x110000) :=
    c.valid
  have main : decodeLossy (List.take k (utf8Encode c)) = [repl] ∧
      decodeLossy (List.drop k (utf8Encode c))
        = List.replicate (charWidth c - k) repl := by
    by_cases h1 : c.toNat < 0x80
    · exfalso
      have : charWidth c = 1 := by simp [charWidth, h1]
      omega
    · by_cases h2 : c.toNat < 0x800
      · have he : utf8Encode c = [0xC0 + c.toNat / 0x40, 0x80 + c.toNat % 0x40] := by
          simp [utf8Encode, h1, h2]
        have hwc : charWidth c = 2 := by simp [charWidth, h1, h2]
        rw [hwc] at hk
        interval_cases k
        refine ⟨?_, ?_⟩
        · rw [he]
          simp only [List.take_succ_cons, List.take_zero]
          exact decodeLossy_lead_only _ (by omega) (by omega)
        · rw [he, hwc]
          simp only [List.drop_succ_cons, List.drop_zero]
          rw [decodeLossy_cont_bytes _ (by intro b hb; simp at hb; omega)]
          simp
      · by_cases h3 : c.toNat < 0x10000
        · have he : utf8Encode c = [0xE0 + c.toNat / 0x1000,
              0x80 + c.toNat / 0x40 % 0x40, 0x80 + c.toNat % 0x40] := by
            simp [utf8Encode, h1, h2, h3]
          have hwc : charWidth c = 3 := by simp [charWidth, h1, h2, h3]
          have hcond : cLo (0xE0 + c.toNat / 0x1000) ≤ 0x80 + c.toNat / 0x40 % 0x40 ∧
              0x80 + c.toNat / 0x40 % 0x40 ≤ cHi (0xE0 + c.toNat / 0x1000) := by
            unfold cLo cHi
            rcases hvalid with hv | ⟨hv1, hv2⟩ <;> split_ifs <;> omega
          rw [hwc] at hk
          interval_cases k
          · refine ⟨?_, ?_⟩
            · rw [he]
              simp only [List.take_succ_cons, List.take_zero]
              exact decodeLossy_lead_only _ (by omega) (by omega)
            · rw [he, hwc]
              simp only [List.drop_succ_cons, List.drop_zero]
              rw [decodeLossy_cont_bytes _
                (by intro b hb; simp at hb; rcases hb with hb | hb <;> omega)]
              simp
          · refine ⟨?_, ?_⟩
            · rw [he]
              simp only [List.take_succ_cons, List.take_zero]
              exact decodeLossy_pair_lead3 _ _ (by omega) (by omega) hcond
            · rw [he, hwc]
              simp only [List.drop_succ_cons, List.drop_zero]
              rw [decodeLossy_cont_bytes _ (by intro b hb; simp at hb; omega)]
              simp
        · have h4 : c.toNat < 0x110000 := by
            rcases hvalid with hv | ⟨hv1, hv2⟩ <;> omega
          have he : utf8Encode c = [0xF0 + c.toNat / 0x40000,
              0x80 + c.toNat / 0x1000 % 0x40, 0x80 + c.toNat / 0x40 % 0x40,
              0x80 + c.toNat % 0x40] := by
            simp [utf8Encode, h1, h2, h3]
          have hwc : charWidth c = 4 := by simp [charWidth, h1, h2, h3]
          have hcond : cLo (0xF0 + c.toNat / 0x40000) ≤ 0x80 + c.toNat / 0x1000 % 0x40 ∧
              0x80 + c.toNat / 0x1000 % 0x40 ≤ cHi (0xF0 + c.toNat / 0x40000) := by
            unfold cLo cHi
            split_ifs <;> omega
          rw [hwc] at hk
          interval_cases k
          · refine ⟨?_, ?_⟩
            · rw [he]
              simp only [List.take_succ_cons, List.take_zero]
              exact decodeLossy_lead_only _ (by omega) (by omega)
            · rw [he, hwc]
              simp only [List.drop_succ_cons, List.drop_zero]
              rw [decodeLossy_cont_bytes _
                (by intro b hb; simp at hb; rcases hb with hb | hb | hb <;> omega)]
              simp
          · refine ⟨?_, ?_⟩
            · rw [he]
              simp only [List.take_succ_cons, List.take_zero]
              exact decodeLossy_pair_lead4 _ _ (by omega) (by omega) hcond
            · rw [he, hwc]
              simp only [List.drop_succ_cons, List.drop_zero]
              rw [decodeLossy_cont_bytes _
                (by intro b hb; simp at hb; rcases hb with hb | hb <;> omega)]
              simp
          · refine ⟨?_, ?_⟩
            · rw [he]
              simp only [List.take_succ_cons, List.take_zero]
              exact decodeLossy_triple_lead4 _ _ _ (by omega) (by omega) hcond
                (by omega)
            · rw [he, hwc]
              simp only [List.drop_succ_cons, List.drop_zero]
              rw [decodeLossy_cont_bytes _ (by intro b hb; simp at hb; omega)]
              simp
  refine ⟨main.1, main.2, fun hne => ⟨?_, ?_⟩⟩
  · simp only [read_string]
    rw [main.1]
    simp [hne]
  · simp only [read_string]
    rw [main.2]
    simp [List.mem_replicate, hne]

/-- Witness for the amended C10 theorem: the two-byte character `é` split
after its first byte. -/
theorem read_split_codepoint_witness :
    (read_string (List.take 1 (utf8Encode 'é'))).1 = [repl] ∧
    (read_string (List.drop 1 (utf8Encode 'é'))).1
      = List.replicate (charWidth 'é' - 1) repl ∧
    ('é' ≠ repl →
      'é' ∉ (read_string (List.take 1 (utf8Encode 'é'))).1 ∧
      'é' ∉ (read_string (List.drop 1 (utf8Encode 'é'))).1) :=
  read_split_codepoint 'é' 1 (by decide) (by decide) (by decide)

end Starr
